import Mathlib

/-!
Verification of the taskboard real-time event-distribution hub.

The definitions below shallowly embed the Go source of the hub core:

* `Hub.Run` (websocket hub control loop: register / unregister / broadcast
  over `clients map[*Client]bool`, with non-blocking try-send and forced
  shed of slow consumers),
* `NewHub` and `serveWs` (channel capacities: `make(chan []byte, 256)`),
* `Client.ReadMsgFromWebSocket` / `Client.WriteMsgToWebSocket`
  (the two per-session loops, keepalive constants, and the opportunistic
  coalescing of queued payloads into one text frame).

Machine integers do not matter here (lengths, capacities and durations are
small naturals), so all arithmetic is over `Nat`.
-/

namespace Taskboard

/-! ### Keepalive and write-deadline constants

Embedded from the `const` block of the websocket client file:
`writeWait = 10 * time.Second`, `pongWait = 60 * time.Second`,
`pingPeriod = (pongWait * 9) / 10`, `maxMessageSize = 512`.
Durations are in nanoseconds, exactly as Go's `time.Duration` counts them. -/

/-- One second in nanoseconds (`time.Second`). -/
def nsPerSecond : Nat := 1000000000

/-- Time allowed to write a message to the peer (`writeWait = 10 * time.Second`). -/
def writeWait : Nat := 10 * nsPerSecond

/-- Time allowed to read the next pong from the peer (`pongWait = 60 * time.Second`). -/
def pongWait : Nat := 60 * nsPerSecond

/-- Ping period (`pingPeriod = (pongWait * 9) / 10`); Nat division is exact here. -/
def pingPeriod : Nat := pongWait * 9 / 10

/-- Maximum allowed inbound message size (`maxMessageSize = 512`). -/
def maxMessageSize : Nat := 512

/-! ### Payloads and the outbound coalescing write

`Client.WriteMsgToWebSocket` receives one payload from the `Send` channel,
opens one text-frame writer, writes the payload, then drains
`n := len(c.Send)` further queued payloads, writing a `'\n'` byte before
each, and closes the writer, flushing a single frame. -/

/-- A payload: a byte slice (`[]byte`), bytes as naturals. -/
abbrev Msg := List Nat

/-- The newline delimiter byte written between coalesced payloads (`'\n'`). -/
def newlineByte : Nat := 10

/-- Embeds the coalescing drain of `WriteMsgToWebSocket`: after writing
`message`, each payload still pending in the queue is appended to the same
frame, preceded by a newline byte. -/
def writeCoalesced (message : Msg) (pending : List Msg) : Msg :=
  pending.foldl (fun w q => w ++ newlineByte :: q) message

/-- The single text frame produced when the outbound loop wakes on a queued
payload: `none` when the queue is empty (the loop would stay blocked),
otherwise the first payload coalesced with every payload pending behind it. -/
def writeWakeFrame : List Msg → Option Msg
  | [] => none
  | message :: rest => some (writeCoalesced message rest)

/-- Modelled from the spec's words for comparison: the K payloads
"delimiter-joined, in enqueue order" — a plain newline-join of the list. -/
def frameJoinedSpec : List Msg → Msg
  | [] => []
  | [m] => m
  | m :: rest => m ++ newlineByte :: frameJoinedSpec rest

/-! ### Hub.Run startup

`Hub.Run` begins with `h.nats.Subscribe("tasks.>", ...)`.  Both return
values of `Subscribe` — the subscription and the error — are discarded; the
function then logs a success message and unconditionally enters its
`for := select` loop. -/

/-- What `Hub.Run` does after the `Subscribe` call returns. -/
inductive RunContinuation
  | enterSelectLoop
  | exitProcess
  deriving DecidableEq, Repr

/-- Embeds the startup of `Hub.Run`: the `(*nats.Subscription, error)`
return of `h.nats.Subscribe("tasks.>", handler)` is discarded, so control
reaches the select loop whether or not the subscription call failed. -/
def hubRunStartup (subscribeFails : Bool) : RunContinuation :=
  RunContinuation.enterSelectLoop

/-! ### Channel capacities

`NewHub` builds `broadcast: make(chan []byte, 256)` and unbuffered
`Register` / `unregister` channels; `serveWs` builds each client with
`Send: make(chan []byte, 256)`. -/

/-- The channels a `Hub` is created with. -/
structure HubQueues where
  broadcastCap : Nat
  registerBuffered : Bool
  unregisterBuffered : Bool
  deriving DecidableEq, Repr

/-- Embeds `NewHub`: broadcast intake buffered to 256, register and
unregister channels unbuffered. -/
def NewHub : HubQueues :=
  { broadcastCap := 256, registerBuffered := false, unregisterBuffered := false }

/-- Capacity of every client's outbound queue, from `serveWs`:
`Send: make(chan []byte, 256)`. -/
def sendChanCap : Nat := 256

/-! ### The Hub control loop as a state machine

The `for := select` loop of `Hub.Run` serializes four kinds of events:
a client arriving on `Register`, one arriving on `unregister`, a payload
arriving on `broadcast`, and (on the client side) the write loop receiving
from its `Send` channel.  Client identity is the `*Client` pointer; we use
a `Nat` id.  A `Send` channel is its buffered contents plus a closed flag. -/

/-- Identity of a client session (stands for the `*Client` pointer). -/
abbrev ClientId := Nat

/-- State of one client's `Send` channel: buffered payloads (FIFO) and
whether `close` has been called on it. -/
structure SendChan where
  buf : List Msg
  closed : Bool
  deriving DecidableEq, Repr

/-- State owned by the Hub loop: the registry (keys of
`clients map[*Client]bool`) plus every client's `Send` channel. -/
structure HubState where
  clients : List ClientId
  send : ClientId → SendChan

/-- The Hub's initial state: empty registry; every id's channel is the
fresh open empty channel `serveWs` would create for it. -/
def initHub : HubState :=
  { clients := [], send := fun _ => { buf := [], closed := false } }

/-- Pointwise update of the channel map at one client. -/
def setChan (f : ClientId → SendChan) (c : ClientId) (ch : SendChan) :
    ClientId → SendChan :=
  fun x => if x = c then ch else f x

/-- One iteration of the broadcast fan-out body for one registered client:
`select case client.Send <- message` succeeds exactly when the buffer has
room; on `default` (buffer full) the Hub closes `client.Send` and deletes
the client from the registry. -/
def tryDeliver (m : Msg) (st : HubState) (c : ClientId) : HubState :=
  if (st.send c).buf.length < sendChanCap then
    { st with send := setChan st.send c { st.send c with buf := (st.send c).buf ++ [m] } }
  else
    { clients := st.clients.erase c,
      send := setChan st.send c { st.send c with closed := true } }

/-- The events the Hub loop (plus the client-side queue drain) processes. -/
inductive HubEv
  | register (c : ClientId)
  | unregister (c : ClientId)
  | broadcast (m : Msg)
  | recv (c : ClientId)

/-- One serialized step of `Hub.Run`'s select loop (with `recv` embedding
the client write loop taking one payload off its `Send` buffer):
* `register c` — `h.clients[client] = true`: map assignment, a no-op on an
  existing key;
* `unregister c` — if present, delete from the map and `close(client.Send)`;
  otherwise nothing;
* `broadcast m` — iterate the registry, try-send to each client, shedding
  any client whose buffer is full;
* `recv c` — the client's write loop receives the head of its buffer. -/
def hubStep (st : HubState) : HubEv → HubState
  | .register c =>
      if c ∈ st.clients then st else { st with clients := st.clients ++ [c] }
  | .unregister c =>
      if c ∈ st.clients then
        { clients := st.clients.erase c,
          send := setChan st.send c { st.send c with closed := true } }
      else st
  | .broadcast m => st.clients.foldl (tryDeliver m) st
  | .recv c =>
      if (st.send c).buf = [] then st
      else { st with send := setChan st.send c { st.send c with buf := (st.send c).buf.tail } }

/-- Run the Hub loop over a sequence of events. -/
def hubRun (st : HubState) (evs : List HubEv) : HubState :=
  evs.foldl hubStep st

/-- The ids carried by the register events of a trace. -/
def registersOf : List HubEv → List ClientId
  | [] => []
  | .register c :: rest => c :: registersOf rest
  | _ :: rest => registersOf rest

/-- A trace is fresh when no client id is registered twice: in the program
every `Register` send comes from `serveWs` with a newly allocated
`*Client`, so the same pointer is never registered again. -/
def FreshTrace (evs : List HubEv) : Prop := (registersOf evs).Nodup

instance (evs : List HubEv) : Decidable (FreshTrace evs) :=
  inferInstanceAs (Decidable ((registersOf evs).Nodup))

/-- Modelled from the spec: "a session is a member if and only if it has
been registered and not yet unregistered" (or shed).  The boolean tracks,
along the trace, whether the client has a register event after which no
unregister for it and no shed of it (a broadcast arriving while it was a
member with a full queue) has occurred.  The hub state is carried only to
read the queue-full condition at each broadcast. -/
def memberBit (c : ClientId) (b : Bool) (st : HubState) : HubEv → Bool
  | .register c2 => if c2 = c then true else b
  | .unregister c2 => if c2 = c then false else b
  | .broadcast _ =>
      if b && !(decide ((st.send c).buf.length < sendChanCap)) then false else b
  | .recv _ => b

def memberAfter (c : ClientId) (b : Bool) (st : HubState) : List HubEv → Bool
  | [] => b
  | e :: rest => memberAfter c (memberBit c b st e) (hubStep st e) rest

/-- Modelled from the spec: membership predicate of the spec's words over a
whole trace from the initial state. -/
def memberSpec (c : ClientId) (evs : List HubEv) : Bool :=
  memberAfter c false initHub evs

/-! ### The two per-session loops

`Client.ReadMsgFromWebSocket` loops on `conn.ReadMessage()`; any error
breaks the loop and its deferred block sends the client on
`Hub.unregister` and closes the connection.  `Client.WriteMsgToWebSocket`
loops on `select` over the `Send` channel and the ping ticker; any write
error (or the channel being closed) returns, and its deferred block stops
the ticker and closes the connection — it does not itself send on
`Hub.unregister`.  A closed connection makes the next `ReadMessage` (and
any write) return an error. -/

/-- Joint state of one session's two loops. -/
structure SessionLoops where
  readRunning : Bool
  writeRunning : Bool
  connClosed : Bool
  unregRequested : Bool
  deriving DecidableEq, Repr

/-- Both loops running on a fresh connection. -/
def sessionInit : SessionLoops :=
  { readRunning := true, writeRunning := true, connClosed := false, unregRequested := false }

/-- Labels for the observable actions of the two loops. -/
inductive LoopLabel
  | readMsg
  | readFail
  | writeMsg
  | writeFail
  deriving DecidableEq, Repr

/-- One action of either loop.
* `readMsg` — `ReadMessage` succeeds (needs an open connection); the
  payload is only logged, so the state is unchanged.
* `readFail` — `ReadMessage` errors (oversized frame, pong timeout,
  transport fault, or the connection having been closed); the loop breaks
  and its deferred block sends on `Hub.unregister` and closes the
  connection.
* `writeMsg` — a frame or ping is written successfully (needs an open
  connection).
* `writeFail` — a write errors or the `Send` channel is closed; the loop
  returns and its deferred block closes the connection (no unregister). -/
inductive LoopStep : SessionLoops → LoopLabel → SessionLoops → Prop
  | readMsg (st : SessionLoops) :
      st.readRunning = true → st.connClosed = false → LoopStep st .readMsg st
  | readFail (st : SessionLoops) :
      st.readRunning = true →
      LoopStep st .readFail
        { readRunning := false, writeRunning := st.writeRunning,
          connClosed := true, unregRequested := true }
  | writeMsg (st : SessionLoops) :
      st.writeRunning = true → st.connClosed = false → LoopStep st .writeMsg st
  | writeFail (st : SessionLoops) :
      st.writeRunning = true →
      LoopStep st .writeFail
        { readRunning := st.readRunning, writeRunning := false,
          connClosed := true, unregRequested := st.unregRequested }

/-- Reachability by any interleaving of loop actions. -/
def LoopReach (a b : SessionLoops) : Prop :=
  Relation.ReflTransGen (fun x y => ∃ l, LoopStep x l y) a b

/-- The forced completion of the inbound loop: once the connection is
closed, the only step left to a still-running read loop is `readFail`,
whose deferred block requests deregistration. -/
def finishRead (st : SessionLoops) : SessionLoops :=
  if st.readRunning then
    { readRunning := false, writeRunning := st.writeRunning,
      connClosed := true, unregRequested := true }
  else st

/-! ### Basic lemmas about the channel map and the fan-out body -/

theorem setChan_self (f : ClientId → SendChan) (c : ClientId) (ch : SendChan) :
    setChan f c ch c = ch := by
  simp [setChan]

theorem setChan_ne (f : ClientId → SendChan) (c : ClientId) (ch : SendChan)
    (x : ClientId) (h : x ≠ c) : setChan f c ch x = f x := by
  simp [setChan, h]

theorem tryDeliver_send_ne (m : Msg) (st : HubState) (c x : ClientId) (h : x ≠ c) :
    (tryDeliver m st c).send x = st.send x := by
  unfold tryDeliver
  split <;> simp [setChan, h]

theorem tryDeliver_clients_mem (m : Msg) (st : HubState) (c x : ClientId) (h : x ≠ c) :
    x ∈ (tryDeliver m st c).clients ↔ x ∈ st.clients := by
  unfold tryDeliver
  split
  · simp
  · simpa using List.mem_erase_of_ne h

theorem tryDeliver_clients_subset (m : Msg) (st : HubState) (c : ClientId) :
    (tryDeliver m st c).clients ⊆ st.clients := by
  unfold tryDeliver
  split
  · simp
  · intro x hx
    exact List.mem_of_mem_erase hx

theorem tryDeliver_nodup (m : Msg) (st : HubState) (c : ClientId)
    (h : st.clients.Nodup) : (tryDeliver m st c).clients.Nodup := by
  unfold tryDeliver
  split
  · exact h
  · exact h.erase c

/-! ### Coalescing (claim C4) -/

theorem frameJoinedSpec_cons_cons (a b : Msg) (l : List Msg) :
    frameJoinedSpec (a :: b :: l) = a ++ newlineByte :: frameJoinedSpec (b :: l) := by
  rfl

theorem frameJoinedSpec_shift (rest : List Msg) (m q : Msg) :
    frameJoinedSpec ((m ++ newlineByte :: q) :: rest) =
      m ++ newlineByte :: frameJoinedSpec (q :: rest) := by
  cases rest with
  | nil => simp [frameJoinedSpec]
  | cons r rs => simp [frameJoinedSpec_cons_cons]

theorem writeCoalesced_join (pending : List Msg) :
    ∀ message : Msg, writeCoalesced message pending = frameJoinedSpec (message :: pending) := by
  induction pending with
  | nil => intro message; simp [writeCoalesced, frameJoinedSpec]
  | cons q rest ih =>
      intro message
      have h1 : writeCoalesced message (q :: rest) =
          writeCoalesced (message ++ newlineByte :: q) rest := by
        simp [writeCoalesced]
      rw [h1, ih, frameJoinedSpec_shift, frameJoinedSpec_cons_cons]

/-- Claim C4: when the outbound loop wakes with K >= 1 payloads pending in
the session's queue, the drain in `WriteMsgToWebSocket` produces exactly
one frame, equal to all K payloads in enqueue order joined by the newline
delimiter, with the payload bytes unmodified. -/
theorem coalescing_correctness (message : Msg) (pending : List Msg) :
    writeWakeFrame (message :: pending) = some (frameJoinedSpec (message :: pending)) := by
  simp [writeWakeFrame, writeCoalesced_join]

/-! ### Keepalive constants (claim C8) -/

/-- Claim C8: the pong-wait window is exactly 60 seconds, the ping period
is exactly nine tenths of it, namely 54 seconds, strictly less than the
pong-wait window, and the per-write deadline is exactly 10 seconds. -/
theorem keepalive_constants :
    pongWait = 60 * nsPerSecond ∧
    pingPeriod = 54 * nsPerSecond ∧
    pingPeriod * 10 = pongWait * 9 ∧
    pingPeriod < pongWait ∧
    writeWait = 10 * nsPerSecond := by
  refine ⟨rfl, ?_, ?_, ?_, rfl⟩ <;> decide

/-! ### Subscription failure at startup (claim C5) -/

/-- Claim C5 fails on the code: `Hub.Run` discards the error returned by
`nats.Subscribe`, so a failed subscription is indistinguishable from a
successful one and the Hub enters its select loop either way, rather than
the failure being fatal to the hosting process. -/
theorem hubRunStartup_ignores_subscribe_error :
    hubRunStartup true = RunContinuation.enterSelectLoop ∧
    hubRunStartup true = hubRunStartup false :=
  ⟨rfl, rfl⟩

/-! ### Register idempotence (claim C9) -/

/-- Claim C9: processing a register event for a session already in the
registry leaves the whole hub state unchanged — the map assignment
`h.clients[client] = true` absorbs the duplicate, creating no second
delivery slot and touching no queue. -/
theorem register_idempotence (st : HubState) (c : ClientId)
    (hc : c ∈ st.clients) : hubStep st (HubEv.register c) = st := by
  simp [hubStep, hc]

/-- Witness for claim C9 at a concrete registry. -/
theorem register_idempotence_witness :
    0 ∈ ({ clients := [0, 1], send := fun _ => { buf := [], closed := false } } : HubState).clients ∧
    hubStep { clients := [0, 1], send := fun _ => { buf := [], closed := false } }
        (HubEv.register 0) =
      { clients := [0, 1], send := fun _ => { buf := [], closed := false } } :=
  ⟨by decide, register_idempotence _ 0 (by decide)⟩

/-! ### The broadcast fan-out fold -/

theorem foldl_tryDeliver_not_mem (m : Msg) (L : List ClientId) :
    ∀ st : HubState, ∀ c : ClientId, c ∉ L →
      (L.foldl (tryDeliver m) st).send c = st.send c ∧
      (c ∈ (L.foldl (tryDeliver m) st).clients ↔ c ∈ st.clients) := by
  induction L with
  | nil => intro st c _; simp
  | cons a T ih =>
      intro st c hc
      have hca : c ≠ a := fun h => hc (h ▸ List.mem_cons_self a T)
      have hcT : c ∉ T := fun h => hc (List.mem_cons_of_mem a h)
      obtain ⟨h1, h2⟩ := ih (tryDeliver m st a) c hcT
      refine ⟨?_, ?_⟩
      · rw [List.foldl_cons, h1, tryDeliver_send_ne m st a c hca]
      · rw [List.foldl_cons]
        exact h2.trans (tryDeliver_clients_mem m st a c hca)

theorem foldl_tryDeliver_subset (m : Msg) (L : List ClientId) :
    ∀ st : HubState, (L.foldl (tryDeliver m) st).clients ⊆ st.clients := by
  induction L with
  | nil => intro st; simp
  | cons a T ih =>
      intro st
      rw [List.foldl_cons]
      exact (ih (tryDeliver m st a)).trans (tryDeliver_clients_subset m st a)

theorem foldl_tryDeliver_nodup (m : Msg) (L : List ClientId) :
    ∀ st : HubState, st.clients.Nodup → (L.foldl (tryDeliver m) st).clients.Nodup := by
  induction L with
  | nil => intro st h; simpa using h
  | cons a T ih =>
      intro st h
      rw [List.foldl_cons]
      exact ih (tryDeliver m st a) (tryDeliver_nodup m st a h)

theorem foldl_tryDeliver_mem_room (m : Msg) (L : List ClientId) :
    ∀ st : HubState, L.Nodup → ∀ c ∈ L, (st.send c).buf.length < sendChanCap →
      (L.foldl (tryDeliver m) st).send c =
          { st.send c with buf := (st.send c).buf ++ [m] } ∧
      (c ∈ (L.foldl (tryDeliver m) st).clients ↔ c ∈ st.clients) := by
  induction L with
  | nil => intro st _ c hc; cases hc
  | cons a T ih =>
      intro st hnd c hc hroom
      rw [List.foldl_cons]
      rcases List.mem_cons.mp hc with rfl | hcT
      · have hcT : c ∉ T := (List.nodup_cons.mp hnd).1
        have hdel : tryDeliver m st c =
            { st with send := setChan st.send c { st.send c with buf := (st.send c).buf ++ [m] } } := by
          unfold tryDeliver
          rw [if_pos hroom]
        obtain ⟨h1, h2⟩ := foldl_tryDeliver_not_mem m T (tryDeliver m st c) c hcT
        refine ⟨?_, ?_⟩
        · rw [h1, hdel]
          simp [setChan]
        · rw [h2, hdel]
      · have hca : c ≠ a := by
          rintro rfl
          exact (List.nodup_cons.mp hnd).1 hcT
        have hsend : (tryDeliver m st a).send c = st.send c :=
          tryDeliver_send_ne m st a c hca
        obtain ⟨h1, h2⟩ :=
          ih (tryDeliver m st a) (List.nodup_cons.mp hnd).2 c hcT (by rw [hsend]; exact hroom)
        refine ⟨?_, ?_⟩
        · rw [h1, hsend]
        · exact h2.trans (tryDeliver_clients_mem m st a c hca)

theorem foldl_tryDeliver_mem_full (m : Msg) (L : List ClientId) :
    ∀ st : HubState, L.Nodup → st.clients.Nodup →
      ∀ c ∈ L, ¬ (st.send c).buf.length < sendChanCap →
      (L.foldl (tryDeliver m) st).send c = { st.send c with closed := true } ∧
      c ∉ (L.foldl (tryDeliver m) st).clients := by
  induction L with
  | nil => intro st _ _ c hc; cases hc
  | cons a T ih =>
      intro st hnd hstnd c hc hfull
      rw [List.foldl_cons]
      rcases List.mem_cons.mp hc with rfl | hcT
      · have hcT : c ∉ T := (List.nodup_cons.mp hnd).1
        have hdel : tryDeliver m st c =
            { clients := st.clients.erase c,
              send := setChan st.send c { st.send c with closed := true } } := by
          unfold tryDeliver
          rw [if_neg hfull]
        obtain ⟨h1, h2⟩ := foldl_tryDeliver_not_mem m T (tryDeliver m st c) c hcT
        refine ⟨?_, ?_⟩
        · rw [h1, hdel]
          simp [setChan]
        · rw [h2, hdel]
          simp [hstnd.mem_erase_iff]
      · have hca : c ≠ a := by
          rintro rfl
          exact (List.nodup_cons.mp hnd).1 hcT
        have hsend : (tryDeliver m st a).send c = st.send c :=
          tryDeliver_send_ne m st a c hca
        obtain ⟨h1, h2⟩ :=
          ih (tryDeliver m st a) (List.nodup_cons.mp hnd).2
            (tryDeliver_nodup m st a hstnd) c hcT (by rw [hsend]; exact hfull)
        exact ⟨by rw [h1, hsend], h2⟩

theorem foldl_tryDeliver_all_room (m : Msg) (L : List ClientId) :
    ∀ st : HubState, L.Nodup → (∀ c ∈ L, (st.send c).buf.length < sendChanCap) →
      (L.foldl (tryDeliver m) st).clients = st.clients ∧
      (∀ c ∈ L, (L.foldl (tryDeliver m) st).send c =
          { st.send c with buf := (st.send c).buf ++ [m] }) ∧
      (∀ c, c ∉ L → (L.foldl (tryDeliver m) st).send c = st.send c) := by
  induction L with
  | nil => intro st _ _; simp
  | cons a T ih =>
      intro st hnd hroom
      have haT : a ∉ T := (List.nodup_cons.mp hnd).1
      have hdel : tryDeliver m st a =
          { st with send := setChan st.send a { st.send a with buf := (st.send a).buf ++ [m] } } := by
        unfold tryDeliver
        rw [if_pos (hroom a (List.mem_cons_self a T))]
      have hsend1 : ∀ c, c ≠ a → (tryDeliver m st a).send c = st.send c := fun c hca =>
        tryDeliver_send_ne m st a c hca
      obtain ⟨hcl, hin, hout⟩ := ih (tryDeliver m st a) (List.nodup_cons.mp hnd).2
        (by
          intro c hcT
          have hca : c ≠ a := by
            rintro rfl
            exact haT hcT
          rw [hsend1 c hca]
          exact hroom c (List.mem_cons_of_mem a hcT))
      rw [List.foldl_cons]
      refine ⟨?_, ?_, ?_⟩
      · rw [hcl, hdel]
      · intro c hc
        rcases List.mem_cons.mp hc with rfl | hcT
        · rw [hout c haT, hdel]
          simp [setChan]
        · have hca : c ≠ a := by
            rintro rfl
            exact haT hcT
          rw [hin c hcT, hsend1 c hca]
      · intro c hc
        have hca : c ≠ a := fun h => hc (h ▸ List.mem_cons_self a T)
        have hcT : c ∉ T := fun h => hc (List.mem_cons_of_mem a h)
        rw [hout c hcT, hsend1 c hca]

/-! ### Step-level facts about the hub loop -/

theorem hubStep_broadcast (st : HubState) (m : Msg) :
    hubStep st (HubEv.broadcast m) = st.clients.foldl (tryDeliver m) st := rfl

theorem broadcast_send_not_mem (st : HubState) (m : Msg) (c : ClientId)
    (hc : c ∉ st.clients) :
    (hubStep st (HubEv.broadcast m)).send c = st.send c :=
  (foldl_tryDeliver_not_mem m st.clients st c hc).1

theorem broadcast_not_mem (st : HubState) (m : Msg) (c : ClientId)
    (hc : c ∉ st.clients) :
    c ∉ (hubStep st (HubEv.broadcast m)).clients := fun h =>
  hc ((foldl_tryDeliver_not_mem m st.clients st c hc).2.mp h)

theorem broadcast_mem_iff (st : HubState) (m : Msg) (c : ClientId)
    (hnd : st.clients.Nodup) :
    c ∈ (hubStep st (HubEv.broadcast m)).clients ↔
      c ∈ st.clients ∧ (st.send c).buf.length < sendChanCap := by
  by_cases hc : c ∈ st.clients
  · by_cases hroom : (st.send c).buf.length < sendChanCap
    · have := (foldl_tryDeliver_mem_room m st.clients st hnd c hc hroom).2
      rw [hubStep_broadcast, this]
      simp [hc, hroom]
    · have := (foldl_tryDeliver_mem_full m st.clients st hnd hnd c hc hroom).2
      rw [hubStep_broadcast]
      simp [this, hroom]
  · simp [broadcast_not_mem st m c hc, hc]

theorem hubStep_nodup (st : HubState) (e : HubEv) (h : st.clients.Nodup) :
    (hubStep st e).clients.Nodup := by
  cases e with
  | register c =>
      by_cases hc : c ∈ st.clients
      · simpa [hubStep, hc] using h
      · simp [hubStep, hc, List.nodup_append, h]
  | unregister c =>
      by_cases hc : c ∈ st.clients
      · simpa [hubStep, hc] using h.erase c
      · simpa [hubStep, hc] using h
  | broadcast m => exact foldl_tryDeliver_nodup m st.clients st h
  | recv c =>
      by_cases hb : (st.send c).buf = []
      · simpa [hubStep, hb] using h
      · simpa [hubStep, hb] using h

theorem hubStep_recv_clients (st : HubState) (c : ClientId) :
    (hubStep st (HubEv.recv c)).clients = st.clients := by
  by_cases hb : (st.send c).buf = [] <;> simp [hubStep, hb]

theorem hubRun_nodup (evs : List HubEv) :
    ∀ st : HubState, st.clients.Nodup → (hubRun st evs).clients.Nodup := by
  induction evs with
  | nil => intro st h; simpa [hubRun] using h
  | cons e rest ih =>
      intro st h
      exact ih (hubStep st e) (hubStep_nodup st e h)

/-! ### Queue length bound -/

/-- Every client buffer is within the `serveWs` capacity. -/
def Bounded (st : HubState) : Prop :=
  ∀ c : ClientId, (st.send c).buf.length ≤ sendChanCap

theorem tryDeliver_bounded (m : Msg) (st : HubState) (c : ClientId)
    (h : Bounded st) : Bounded (tryDeliver m st c) := by
  intro x
  by_cases hx : x = c
  · subst hx
    unfold tryDeliver
    by_cases hroom : (st.send x).buf.length < sendChanCap
    · simp only [if_pos hroom, setChan_self]
      simpa using hroom
    · simpa [if_neg hroom, setChan_self] using h x
  · rw [tryDeliver_send_ne m st c x hx]
    exact h x

theorem foldl_tryDeliver_bounded (m : Msg) (L : List ClientId) :
    ∀ st : HubState, Bounded st → Bounded (L.foldl (tryDeliver m) st) := by
  induction L with
  | nil => intro st h; simpa using h
  | cons a T ih =>
      intro st h
      rw [List.foldl_cons]
      exact ih (tryDeliver m st a) (tryDeliver_bounded m st a h)

theorem hubStep_bounded (st : HubState) (e : HubEv) (h : Bounded st) :
    Bounded (hubStep st e) := by
  cases e with
  | register c =>
      by_cases hc : c ∈ st.clients <;> simpa [hubStep, hc] using h
  | unregister c =>
      by_cases hc : c ∈ st.clients
      · intro x
        by_cases hx : x = c
        · subst hx
          simpa [hubStep, hc, setChan_self] using h x
        · simpa [hubStep, hc, setChan_ne _ _ _ _ hx] using h x
      · simpa [hubStep, hc] using h
  | broadcast m => exact foldl_tryDeliver_bounded m st.clients st h
  | recv c =>
      by_cases hb : (st.send c).buf = []
      · simpa [hubStep, hb] using h
      · intro x
        by_cases hx : x = c
        · subst hx
          simp only [hubStep, if_neg hb, setChan_self]
          have hx := h x
          simp only [List.length_tail]
          omega
        · simpa [hubStep, hb, setChan_ne _ _ _ _ hx] using h x

theorem hubRun_bounded (evs : List HubEv) :
    ∀ st : HubState, Bounded st → Bounded (hubRun st evs) := by
  induction evs with
  | nil => intro st h; simpa [hubRun] using h
  | cons e rest ih =>
      intro st h
      exact ih (hubStep st e) (hubStep_bounded st e h)

theorem initHub_bounded : Bounded initHub := by
  intro c
  simp [initHub]

/-! ### Registered sessions have open queues (fresh traces) -/

/-- The registry has no duplicates and every member's queue is open. -/
def GoodState (st : HubState) : Prop :=
  st.clients.Nodup ∧ ∀ c ∈ st.clients, (st.send c).closed = false

/-- An id the Hub has never touched: not a member and its queue open —
what holds of the fresh `*Client` a future register event carries. -/
def CleanId (st : HubState) (c : ClientId) : Prop :=
  c ∉ st.clients ∧ (st.send c).closed = false

theorem initHub_good : GoodState initHub := by
  constructor
  · simp [initHub]
  · intro c hc
    simp [initHub] at hc

theorem initHub_clean (c : ClientId) : CleanId initHub c := by
  constructor
  · simp [initHub]
  · simp [initHub]

theorem hubStep_good (st : HubState) (e : HubEv) (hg : GoodState st)
    (hclean : ∀ c : ClientId, e = HubEv.register c → CleanId st c) :
    GoodState (hubStep st e) := by
  obtain ⟨hnd, hopen⟩ := hg
  refine ⟨hubStep_nodup st e hnd, ?_⟩
  cases e with
  | register c =>
      obtain ⟨hcm, hcop⟩ := hclean c rfl
      intro x hx
      rw [hubStep, if_neg hcm] at hx
      simp only [hubStep, if_neg hcm]
      rcases List.mem_append.mp hx with hx | hx
      · exact hopen x hx
      · have : x = c := by simpa using hx
        subst this
        exact hcop
  | unregister c =>
      intro x hx
      by_cases hc : c ∈ st.clients
      · rw [hubStep, if_pos hc] at hx
        have hxc : x ≠ c := by
          intro h
          subst h
          exact (hnd.mem_erase_iff.mp hx).1 rfl
        simp only [hubStep, if_pos hc, setChan_ne _ _ _ _ hxc]
        exact hopen x (List.mem_of_mem_erase hx)
      · rw [hubStep, if_neg hc] at hx
        simpa [hubStep, hc] using hopen x hx
  | broadcast m =>
      intro x hx
      have hmem := (broadcast_mem_iff st m x hnd).mp hx
      have hsx := (foldl_tryDeliver_mem_room m st.clients st hnd x hmem.1 hmem.2).1
      rw [hubStep_broadcast, hsx]
      exact hopen x hmem.1
  | recv c =>
      intro x hx
      rw [hubStep_recv_clients] at hx
      by_cases hb : (st.send c).buf = []
      · simpa [hubStep, hb] using hopen x hx
      · by_cases hxc : x = c
        · subst hxc
          simp only [hubStep, if_neg hb, setChan_self]
          exact hopen x hx
        · simp only [hubStep, if_neg hb, setChan_ne _ _ _ _ hxc]
          exact hopen x hx

theorem hubStep_clean (st : HubState) (e : HubEv) (c : ClientId)
    (hc : CleanId st c) (hne : ∀ c2 : ClientId, e = HubEv.register c2 → c2 ≠ c) :
    CleanId (hubStep st e) c := by
  obtain ⟨hcm, hcop⟩ := hc
  cases e with
  | register c2 =>
      have hc2 : c2 ≠ c := hne c2 rfl
      by_cases hm : c2 ∈ st.clients
      · simpa [hubStep, hm] using ⟨hcm, hcop⟩
      · refine ⟨?_, by simpa [hubStep, hm] using hcop⟩
        simp only [hubStep, if_neg hm]
        intro hx
        rcases List.mem_append.mp hx with hx | hx
        · exact hcm hx
        · have : c = c2 := by simpa using hx
          exact hc2 this.symm
  | unregister c2 =>
      by_cases hm : c2 ∈ st.clients
      · have hc2 : c ≠ c2 := by
          rintro rfl
          exact hcm hm
        refine ⟨?_, ?_⟩
        · simp only [hubStep, if_pos hm]
          intro hx
          exact hcm (List.mem_of_mem_erase hx)
        · simpa [hubStep, hm, setChan_ne _ _ _ _ hc2] using hcop
      · simpa [hubStep, hm] using ⟨hcm, hcop⟩
  | broadcast m =>
      refine ⟨broadcast_not_mem st m c hcm, ?_⟩
      rw [broadcast_send_not_mem st m c hcm]
      exact hcop
  | recv c2 =>
      refine ⟨by rw [hubStep_recv_clients]; exact hcm, ?_⟩
      by_cases hb : (st.send c2).buf = []
      · simpa [hubStep, hb] using hcop
      · by_cases hxc : c = c2
        · subst hxc
          simpa [hubStep, hb, setChan_self] using hcop
        · simpa [hubStep, hb, setChan_ne _ _ _ _ hxc] using hcop

theorem registersOf_cons_register (c : ClientId) (rest : List HubEv) :
    registersOf (HubEv.register c :: rest) = c :: registersOf rest := rfl

theorem registersOf_cons_other (e : HubEv) (rest : List HubEv)
    (h : ∀ c : ClientId, e ≠ HubEv.register c) :
    registersOf (e :: rest) = registersOf rest := by
  cases e with
  | register c => exact absurd rfl (h c)
  | unregister c => rfl
  | broadcast m => rfl
  | recv c => rfl

theorem hubRun_good (evs : List HubEv) :
    ∀ st : HubState, GoodState st →
      (∀ c ∈ registersOf evs, CleanId st c) → (registersOf evs).Nodup →
      GoodState (hubRun st evs) := by
  induction evs with
  | nil => intro st hg _ _; simpa [hubRun] using hg
  | cons e rest ih =>
      intro st hg hclean hnd
      have hstep : GoodState (hubStep st e) := by
        refine hubStep_good st e hg ?_
        intro c he
        subst he
        exact hclean c (by simp [registersOf_cons_register])
      refine ih (hubStep st e) hstep ?_ ?_
      · intro c hc
        cases e with
        | register c2 =>
            have hnd2 := hnd
            rw [registersOf_cons_register] at hnd2
            have hc2c : c2 ≠ c := by
              rintro rfl
              exact (List.nodup_cons.mp hnd2).1 hc
            refine hubStep_clean st _ c ?_ ?_
            · exact hclean c (by simp [registersOf_cons_register, hc])
            · intro c3 he
              cases he
              exact hc2c
        | unregister c2 =>
            refine hubStep_clean st _ c (hclean c ?_) ?_
            · simpa [registersOf_cons_other] using hc
            · intro c3 he
              cases he
        | broadcast m =>
            refine hubStep_clean st _ c (hclean c ?_) ?_
            · simpa [registersOf_cons_other] using hc
            · intro c3 he
              cases he
        | recv c2 =>
            refine hubStep_clean st _ c (hclean c ?_) ?_
            · simpa [registersOf_cons_other] using hc
            · intro c3 he
              cases he
      · cases e with
        | register c2 =>
            rw [registersOf_cons_register] at hnd
            exact (List.nodup_cons.mp hnd).2
        | unregister c2 => exact hnd
        | broadcast m => exact hnd
        | recv c2 => exact hnd

/-- Every state the Hub reaches along a fresh trace is good. -/
theorem hubRun_fresh_good (evs : List HubEv) (hf : FreshTrace evs) :
    GoodState (hubRun initHub evs) :=
  hubRun_good evs initHub initHub_good (fun c _ => initHub_clean c) hf

/-! ### Persistence of a shed or unregistered session -/

theorem broadcast_shed (st : HubState) (m : Msg) (c : ClientId)
    (hnd : st.clients.Nodup) (hc : c ∈ st.clients)
    (hfull : ¬ (st.send c).buf.length < sendChanCap) :
    (hubStep st (HubEv.broadcast m)).send c = { st.send c with closed := true } ∧
      c ∉ (hubStep st (HubEv.broadcast m)).clients := by
  have h := foldl_tryDeliver_mem_full m st.clients st hnd hnd c hc hfull
  rw [hubStep_broadcast]
  exact h

theorem broadcast_closed_untouched (st : HubState) (m : Msg) (c : ClientId)
    (hg : GoodState st) (hcl : (st.send c).closed = true) :
    (hubStep st (HubEv.broadcast m)).send c = st.send c := by
  have hcm : c ∉ st.clients := by
    intro h
    rw [hg.2 c h] at hcl
    cases hcl
  exact broadcast_send_not_mem st m c hcm

theorem hubStep_absent_closed (st : HubState) (e : HubEv) (c : ClientId)
    (h1 : c ∉ st.clients) (h2 : (st.send c).closed = true)
    (hne : ∀ c2 : ClientId, e = HubEv.register c2 → c2 ≠ c) :
    c ∉ (hubStep st e).clients ∧ ((hubStep st e).send c).closed = true ∧
      ((hubStep st e).send c).buf.length ≤ (st.send c).buf.length := by
  cases e with
  | register c2 =>
      have hc2 : c2 ≠ c := hne c2 rfl
      by_cases hm : c2 ∈ st.clients
      · simp only [hubStep, if_pos hm]
        exact ⟨h1, h2, le_refl _⟩
      · refine ⟨?_, by simpa [hubStep, hm] using h2, by simp [hubStep, hm]⟩
        simp only [hubStep, if_neg hm]
        intro hx
        rcases List.mem_append.mp hx with hx | hx
        · exact h1 hx
        · have : c = c2 := by simpa using hx
          exact hc2 this.symm
  | unregister c2 =>
      by_cases hm : c2 ∈ st.clients
      · have hc2 : c ≠ c2 := by
          rintro rfl
          exact h1 hm
        refine ⟨?_, ?_, ?_⟩
        · simp only [hubStep, if_pos hm]
          intro hx
          exact h1 (List.mem_of_mem_erase hx)
        · simpa [hubStep, hm, setChan_ne _ _ _ _ hc2] using h2
        · simp [hubStep, hm, setChan_ne _ _ _ _ hc2]
      · simp only [hubStep, if_neg hm]
        exact ⟨h1, h2, le_refl _⟩
  | broadcast m =>
      refine ⟨broadcast_not_mem st m c h1, ?_, ?_⟩
      · rw [broadcast_send_not_mem st m c h1]
        exact h2
      · rw [broadcast_send_not_mem st m c h1]
  | recv c2 =>
      refine ⟨by rw [hubStep_recv_clients]; exact h1, ?_, ?_⟩
      · by_cases hb : (st.send c2).buf = []
        · simpa [hubStep, hb] using h2
        · by_cases hxc : c = c2
          · subst hxc
            simpa [hubStep, hb, setChan_self] using h2
          · simpa [hubStep, hb, setChan_ne _ _ _ _ hxc] using h2
      · by_cases hb : (st.send c2).buf = []
        · simp [hubStep, hb]
        · by_cases hxc : c = c2
          · subst hxc
            simp only [hubStep, if_neg hb, setChan_self]
            simp only [List.length_tail]
            omega
          · simp [hubStep, hb, setChan_ne _ _ _ _ hxc]

theorem hubRun_absent_closed (evs : List HubEv) (c : ClientId)
    (hno : c ∉ registersOf evs) :
    ∀ st : HubState, c ∉ st.clients → (st.send c).closed = true →
      c ∉ (hubRun st evs).clients ∧ ((hubRun st evs).send c).closed = true ∧
      ((hubRun st evs).send c).buf.length ≤ (st.send c).buf.length := by
  induction evs with
  | nil =>
      intro st h1 h2
      exact ⟨h1, h2, le_refl _⟩
  | cons e rest ih =>
      intro st h1 h2
      have hne : ∀ c2 : ClientId, e = HubEv.register c2 → c2 ≠ c := by
        rintro c2 rfl rfl
        exact hno (by simp [registersOf_cons_register])
      have hnorest : c ∉ registersOf rest := by
        intro hx
        apply hno
        cases e with
        | register c2 => simp [registersOf_cons_register, hx]
        | unregister c2 => simpa [registersOf] using hx
        | broadcast m => simpa [registersOf] using hx
        | recv c2 => simpa [registersOf] using hx
      obtain ⟨s1, s2, s3⟩ := hubStep_absent_closed st e c h1 h2 hne
      obtain ⟨r1, r2, r3⟩ := ih hnorest (hubStep st e) s1 s2
      exact ⟨r1, r2, le_trans r3 s3⟩

/-! ### Membership tracks the spec's registered-and-not-since description -/

theorem memberAfter_correct (c : ClientId) (evs : List HubEv) :
    ∀ (st : HubState) (b : Bool), st.clients.Nodup → ((b = true) ↔ c ∈ st.clients) →
      ((memberAfter c b st evs = true) ↔ c ∈ (hubRun st evs).clients) := by
  induction evs with
  | nil =>
      intro st b _ hb
      simpa [memberAfter, hubRun] using hb
  | cons e rest ih =>
      intro st b hnd hb
      have hstep : (memberBit c b st e = true) ↔ c ∈ (hubStep st e).clients := by
        cases e with
        | register c2 =>
            by_cases hc2 : c2 = c
            · subst hc2
              simp only [memberBit, if_pos rfl, true_iff]
              by_cases hm : c2 ∈ st.clients
              · simp [hubStep, hm]
              · simp [hubStep, hm]
            · simp only [memberBit, if_neg hc2]
              rw [hb]
              by_cases hm : c2 ∈ st.clients
              · simp [hubStep, hm]
              · simp only [hubStep, if_neg hm]
                constructor
                · intro h
                  exact List.mem_append.mpr (Or.inl h)
                · intro h
                  rcases List.mem_append.mp h with h | h
                  · exact h
                  · have : c = c2 := by simpa using h
                    exact absurd this.symm hc2
        | unregister c2 =>
            by_cases hc2 : c2 = c
            · subst hc2
              have hbit : memberBit c2 b st (HubEv.unregister c2) = false := by
                simp [memberBit]
              rw [hbit]
              simp only [Bool.false_eq_true, false_iff]
              by_cases hm : c2 ∈ st.clients
              · simp only [hubStep, if_pos hm]
                intro hx
                exact (hnd.mem_erase_iff.mp hx).1 rfl
              · simp only [hubStep, if_neg hm]
                exact hm
            · simp only [memberBit, if_neg hc2]
              rw [hb]
              by_cases hm : c2 ∈ st.clients
              · simp only [hubStep, if_pos hm]
                exact (List.mem_erase_of_ne (fun h => hc2 h.symm)).symm
              · simp [hubStep, hm]
        | broadcast m =>
            rw [broadcast_mem_iff st m c hnd]
            cases b with
            | false =>
                have hcm : c ∉ st.clients := fun h => by
                  have := hb.mpr h
                  cases this
                simp [memberBit, hcm]
            | true =>
                have hcm : c ∈ st.clients := hb.mp rfl
                by_cases hroom : (st.send c).buf.length < sendChanCap
                · simp [memberBit, hroom, hcm]
                · simp [memberBit, hroom, hcm]
        | recv c2 =>
            simp only [memberBit]
            rw [hb, hubStep_recv_clients]
      exact ih (hubStep st e) (memberBit c b st e) (hubStep_nodup st e hnd) hstep

theorem memberSpec_correct (c : ClientId) (evs : List HubEv) :
    (memberSpec c evs = true) ↔ c ∈ (hubRun initHub evs).clients := by
  refine memberAfter_correct c evs initHub false ?_ ?_
  · simp [initHub]
  · simp [initHub]

/-! ### Broadcast sequences with headroom -/

theorem hubRun_broadcasts (ms : List Msg) :
    ∀ st : HubState, st.clients.Nodup →
      (∀ c ∈ st.clients, (st.send c).buf.length + ms.length ≤ sendChanCap) →
      (hubRun st (ms.map HubEv.broadcast)).clients = st.clients ∧
      (∀ c ∈ st.clients, (hubRun st (ms.map HubEv.broadcast)).send c =
          { st.send c with buf := (st.send c).buf ++ ms }) := by
  induction ms with
  | nil =>
      intro st hnd _
      constructor
      · simp [hubRun]
      · intro c _
        simp [hubRun]
  | cons m ms ih =>
      intro st hnd hroom
      have hall : ∀ c ∈ st.clients, (st.send c).buf.length < sendChanCap := by
        intro c hc
        have := hroom c hc
        simp only [List.length_cons] at this
        omega
      obtain ⟨hcl, hin, _⟩ := foldl_tryDeliver_all_room m st.clients st hnd hall
      have hstep : hubRun st ((m :: ms).map HubEv.broadcast) =
          hubRun (hubStep st (HubEv.broadcast m)) (ms.map HubEv.broadcast) := rfl
      have hnd1 : (hubStep st (HubEv.broadcast m)).clients.Nodup :=
        hubStep_nodup st _ hnd
      have hcl1 : (hubStep st (HubEv.broadcast m)).clients = st.clients := by
        rw [hubStep_broadcast]
        exact hcl
      obtain ⟨rcl, rin⟩ := ih (hubStep st (HubEv.broadcast m)) hnd1
        (by
          intro c hc
          rw [hcl1] at hc
          rw [hubStep_broadcast, hin c hc]
          have := hroom c hc
          simp only [List.length_cons] at this
          simp only [List.length_append, List.length_cons, List.length_nil]
          omega)
      constructor
      · rw [hstep, rcl, hcl1]
      · intro c hc
        rw [hstep, rin c (by rw [hcl1]; exact hc)]
        rw [hubStep_broadcast, hin c hc]
        simp

/-! ### Claim theorems for the Hub -/

/-- Claim C1: while the registry is duplicate-free and every registered
session has queue headroom for the whole sequence, a sequence of
broadcasts leaves the registry unchanged and appends the payloads, in
broadcast order, to every registered session's outbound queue (per-session
FIFO, no session skipped). -/
theorem fanout_completeness (st : HubState) (ms : List Msg)
    (hnd : st.clients.Nodup)
    (hroom : ∀ c ∈ st.clients, (st.send c).buf.length + ms.length ≤ sendChanCap) :
    (hubRun st (ms.map HubEv.broadcast)).clients = st.clients ∧
    ∀ c ∈ st.clients, (hubRun st (ms.map HubEv.broadcast)).send c =
        { st.send c with buf := (st.send c).buf ++ ms } :=
  hubRun_broadcasts ms st hnd hroom

/-- Witness for claim C1: two registered sessions, three broadcasts. -/
theorem fanout_completeness_witness :
    (({ clients := [0, 1], send := fun _ => { buf := [], closed := false } } : HubState).clients.Nodup ∧
      ∀ c ∈ ({ clients := [0, 1], send := fun _ => { buf := [], closed := false } } : HubState).clients,
        (({ clients := [0, 1], send := fun _ => { buf := [], closed := false } } : HubState).send c).buf.length +
            ([[1], [2], [3]] : List Msg).length ≤ sendChanCap) ∧
    ((hubRun { clients := [0, 1], send := fun _ => { buf := [], closed := false } }
          (([[1], [2], [3]] : List Msg).map HubEv.broadcast)).clients = [0, 1] ∧
      ∀ c ∈ ([0, 1] : List ClientId),
        (hubRun { clients := [0, 1], send := fun _ => { buf := [], closed := false } }
            (([[1], [2], [3]] : List Msg).map HubEv.broadcast)).send c =
          { buf := [[1], [2], [3]], closed := false }) :=
  ⟨⟨by decide, by decide⟩,
    fanout_completeness { clients := [0, 1], send := fun _ => { buf := [], closed := false } }
      [[1], [2], [3]] (by decide) (by decide)⟩

/-- Claim C2: along any fresh trace, if a registered session's queue is
full when a broadcast is processed, that broadcast step closes the
session's queue without touching its buffered payloads and removes it from
the registry; along any continuation that never re-registers that id, the
session stays out of the registry, its queue stays closed, and its buffer
never grows — no later broadcast delivers to it. -/
theorem shed_invariant (evs : List HubEv) (c : ClientId) (m : Msg)
    (hf : FreshTrace evs) (hc : c ∈ (hubRun initHub evs).clients)
    (hfull : ¬ ((hubRun initHub evs).send c).buf.length < sendChanCap) :
    ((hubStep (hubRun initHub evs) (HubEv.broadcast m)).send c).closed = true ∧
    ((hubStep (hubRun initHub evs) (HubEv.broadcast m)).send c).buf =
        ((hubRun initHub evs).send c).buf ∧
    c ∉ (hubStep (hubRun initHub evs) (HubEv.broadcast m)).clients ∧
    ∀ evs2 : List HubEv, c ∉ registersOf evs2 →
      c ∉ (hubRun (hubStep (hubRun initHub evs) (HubEv.broadcast m)) evs2).clients ∧
      ((hubRun (hubStep (hubRun initHub evs) (HubEv.broadcast m)) evs2).send c).closed = true ∧
      ((hubRun (hubStep (hubRun initHub evs) (HubEv.broadcast m)) evs2).send c).buf.length ≤
        ((hubRun initHub evs).send c).buf.length := by
  have hg := hubRun_fresh_good evs hf
  obtain ⟨h1, h2⟩ := broadcast_shed (hubRun initHub evs) m c hg.1 hc hfull
  refine ⟨by rw [h1], by rw [h1], h2, ?_⟩
  intro evs2 hno
  obtain ⟨r1, r2, r3⟩ := hubRun_absent_closed evs2 c hno
    (hubStep (hubRun initHub evs) (HubEv.broadcast m)) h2 (by rw [h1])
  refine ⟨r1, r2, ?_⟩
  calc ((hubRun (hubStep (hubRun initHub evs) (HubEv.broadcast m)) evs2).send c).buf.length
      ≤ ((hubStep (hubRun initHub evs) (HubEv.broadcast m)).send c).buf.length := r3
    _ = ((hubRun initHub evs).send c).buf.length := by rw [h1]

/-- Claim C3: along any fresh trace, a session is a member of the registry
exactly when the spec's registered-and-not-since-unregistered-or-shed
tracking says so, and once a session's queue is closed a broadcast step
leaves that queue completely untouched. -/
theorem registry_membership_invariant (evs : List HubEv) (c : ClientId)
    (hf : FreshTrace evs) :
    ((memberSpec c evs = true) ↔ c ∈ (hubRun initHub evs).clients) ∧
    (((hubRun initHub evs).send c).closed = true →
      ∀ m : Msg, (hubStep (hubRun initHub evs) (HubEv.broadcast m)).send c =
        (hubRun initHub evs).send c) := by
  refine ⟨memberSpec_correct c evs, ?_⟩
  intro hcl m
  exact broadcast_closed_untouched (hubRun initHub evs) m c (hubRun_fresh_good evs hf) hcl

/-- Witness for claim C3: register, broadcast, then unregister one session. -/
theorem registry_membership_invariant_witness :
    FreshTrace [HubEv.register 0, HubEv.broadcast [7], HubEv.unregister 0] ∧
    (((memberSpec 0 [HubEv.register 0, HubEv.broadcast [7], HubEv.unregister 0] = true) ↔
        0 ∈ (hubRun initHub [HubEv.register 0, HubEv.broadcast [7], HubEv.unregister 0]).clients) ∧
      (((hubRun initHub [HubEv.register 0, HubEv.broadcast [7], HubEv.unregister 0]).send 0).closed = true →
        ∀ m : Msg,
          (hubStep (hubRun initHub [HubEv.register 0, HubEv.broadcast [7], HubEv.unregister 0])
              (HubEv.broadcast m)).send 0 =
            (hubRun initHub [HubEv.register 0, HubEv.broadcast [7], HubEv.unregister 0]).send 0)) :=
  ⟨by decide,
    registry_membership_invariant [HubEv.register 0, HubEv.broadcast [7], HubEv.unregister 0] 0
      (by decide)⟩

/-- Claim C7: along any fresh trace, an unregister event for an absent
session leaves the entire hub state unchanged (a total no-op, closing
nothing), while an unregister event for a member removes exactly that
member and closes exactly that member's queue, which was open until then
(so it is closed exactly once). -/
theorem unregister_idempotence (evs : List HubEv) (c : ClientId)
    (hf : FreshTrace evs) :
    (c ∉ (hubRun initHub evs).clients →
        hubStep (hubRun initHub evs) (HubEv.unregister c) = hubRun initHub evs) ∧
    (c ∈ (hubRun initHub evs).clients →
        (hubStep (hubRun initHub evs) (HubEv.unregister c)).clients =
            (hubRun initHub evs).clients.erase c ∧
        c ∉ (hubStep (hubRun initHub evs) (HubEv.unregister c)).clients ∧
        ((hubRun initHub evs).send c).closed = false ∧
        ((hubStep (hubRun initHub evs) (HubEv.unregister c)).send c).closed = true ∧
        ∀ x : ClientId, x ≠ c →
          (hubStep (hubRun initHub evs) (HubEv.unregister c)).send x =
            (hubRun initHub evs).send x) := by
  have hg := hubRun_fresh_good evs hf
  constructor
  · intro hc
    simp [hubStep, hc]
  · intro hc
    refine ⟨by simp [hubStep, hc], ?_, hg.2 c hc, ?_, ?_⟩
    · simp only [hubStep, if_pos hc]
      intro hx
      exact (hg.1.mem_erase_iff.mp hx).1 rfl
    · simp [hubStep, hc, setChan_self]
    · intro x hx
      simp [hubStep, hc, setChan_ne _ _ _ _ hx]

/-- Witness for claim C7: after registering session 0, unregistering the
absent session 1 is a perfect no-op and unregistering member 0 closes its
queue exactly once. -/
theorem unregister_idempotence_witness :
    FreshTrace [HubEv.register 0] ∧
    (1 ∉ (hubRun initHub [HubEv.register 0]).clients →
        hubStep (hubRun initHub [HubEv.register 0]) (HubEv.unregister 1) =
          hubRun initHub [HubEv.register 0]) ∧
    (1 ∈ (hubRun initHub [HubEv.register 0]).clients →
        (hubStep (hubRun initHub [HubEv.register 0]) (HubEv.unregister 1)).clients =
            (hubRun initHub [HubEv.register 0]).clients.erase 1 ∧
        1 ∉ (hubStep (hubRun initHub [HubEv.register 0]) (HubEv.unregister 1)).clients ∧
        ((hubRun initHub [HubEv.register 0]).send 1).closed = false ∧
        ((hubStep (hubRun initHub [HubEv.register 0]) (HubEv.unregister 1)).send 1).closed = true ∧
        ∀ x : ClientId, x ≠ 1 →
          (hubStep (hubRun initHub [HubEv.register 0]) (HubEv.unregister 1)).send x =
            (hubRun initHub [HubEv.register 0]).send x) :=
  ⟨by decide, unregister_idempotence [HubEv.register 0] 1 (by decide)⟩

/-- Claim C10: the per-session queue capacity from `serveWs` and the Hub's
broadcast intake capacity from `NewHub` are both exactly 256; along every
event trace every session's queue holds at most 256 pending payloads; and
a broadcast reaching a session whose queue already holds 256 sheds that
session (closing its queue, leaving the buffer at 256) instead of growing
the queue. -/
theorem queue_capacity_bounds :
    sendChanCap = 256 ∧ NewHub.broadcastCap = 256 ∧
    (∀ (evs : List HubEv) (c : ClientId),
        ((hubRun initHub evs).send c).buf.length ≤ 256) ∧
    (∀ (st : HubState) (m : Msg) (c : ClientId), st.clients.Nodup → c ∈ st.clients →
        (st.send c).buf.length = 256 →
        c ∉ (hubStep st (HubEv.broadcast m)).clients ∧
        ((hubStep st (HubEv.broadcast m)).send c).closed = true ∧
        ((hubStep st (HubEv.broadcast m)).send c).buf = (st.send c).buf) := by
  refine ⟨rfl, rfl, ?_, ?_⟩
  · intro evs c
    exact hubRun_bounded evs initHub initHub_bounded c
  · intro st m c hnd hc hlen
    have hfull : ¬ (st.send c).buf.length < sendChanCap := by
      rw [hlen]
      simp [sendChanCap]
    obtain ⟨h1, h2⟩ := broadcast_shed st m c hnd hc hfull
    exact ⟨h2, by rw [h1], by rw [h1]⟩

/-- Witness for claim C10: a session with exactly 256 buffered payloads is
shed by the next broadcast. -/
theorem queue_capacity_bounds_witness :
    (({ clients := [0], send := fun _ => { buf := List.replicate 256 [5], closed := false } } : HubState).clients.Nodup ∧
      0 ∈ ({ clients := [0], send := fun _ => { buf := List.replicate 256 [5], closed := false } } : HubState).clients ∧
      (({ clients := [0], send := fun _ => { buf := List.replicate 256 [5], closed := false } } : HubState).send 0).buf.length = 256) ∧
    (0 ∉ (hubStep { clients := [0], send := fun _ => { buf := List.replicate 256 [5], closed := false } }
          (HubEv.broadcast [9])).clients ∧
      ((hubStep { clients := [0], send := fun _ => { buf := List.replicate 256 [5], closed := false } }
            (HubEv.broadcast [9])).send 0).closed = true ∧
      ((hubStep { clients := [0], send := fun _ => { buf := List.replicate 256 [5], closed := false } }
            (HubEv.broadcast [9])).send 0).buf =
        (({ clients := [0], send := fun _ => { buf := List.replicate 256 [5], closed := false } } : HubState).send 0).buf) :=
  ⟨⟨by decide, by decide, List.length_replicate 256 _⟩,
    queue_capacity_bounds.2.2.2
      { clients := [0], send := fun _ => { buf := List.replicate 256 [5], closed := false } }
      [9] 0 (by decide) (by decide) (List.length_replicate 256 _)⟩

set_option maxRecDepth 8000 in
/-- Witness for claim C2: registering session 0 and broadcasting 256
payloads fills its queue exactly; the next broadcast sheds it. -/
theorem shed_invariant_witness :
    FreshTrace (HubEv.register 0 :: List.replicate 256 (HubEv.broadcast [5])) ∧
    0 ∈ (hubRun initHub (HubEv.register 0 :: List.replicate 256 (HubEv.broadcast [5]))).clients ∧
    ¬ ((hubRun initHub (HubEv.register 0 :: List.replicate 256 (HubEv.broadcast [5]))).send 0).buf.length <
        sendChanCap ∧
    ((hubStep (hubRun initHub (HubEv.register 0 :: List.replicate 256 (HubEv.broadcast [5])))
          (HubEv.broadcast [9])).send 0).closed = true ∧
    0 ∉ (hubStep (hubRun initHub (HubEv.register 0 :: List.replicate 256 (HubEv.broadcast [5])))
          (HubEv.broadcast [9])).clients := by
  have h1 : FreshTrace (HubEv.register 0 :: List.replicate 256 (HubEv.broadcast [5])) := by
    decide
  have h2 : 0 ∈ (hubRun initHub (HubEv.register 0 :: List.replicate 256 (HubEv.broadcast [5]))).clients := by
    decide
  have h3 : ¬ ((hubRun initHub (HubEv.register 0 :: List.replicate 256 (HubEv.broadcast [5]))).send 0).buf.length <
      sendChanCap := by
    decide
  obtain ⟨g1, _, g3, _⟩ :=
    shed_invariant (HubEv.register 0 :: List.replicate 256 (HubEv.broadcast [5])) 0 [9] h1 h2 h3
  exact ⟨h1, h2, h3, g1, g3⟩

/-! ### Claim C6: either loop's exit leads to deregistration -/

theorem loopStep_inv (st : SessionLoops) (l : LoopLabel) (st2 : SessionLoops)
    (h : LoopStep st l st2)
    (hr : st.readRunning = false → st.unregRequested = true)
    (hw : st.writeRunning = false → st.connClosed = true) :
    (st2.readRunning = false → st2.unregRequested = true) ∧
    (st2.writeRunning = false → st2.connClosed = true) := by
  cases h with
  | readMsg h1 h2 => exact ⟨hr, hw⟩
  | readFail h1 => exact ⟨fun _ => rfl, fun _ => rfl⟩
  | writeMsg h1 h2 => exact ⟨hr, hw⟩
  | writeFail h1 => exact ⟨fun hrf => hr hrf, fun _ => rfl⟩

theorem loopReach_inv (st : SessionLoops) (h : LoopReach sessionInit st) :
    (st.readRunning = false → st.unregRequested = true) ∧
    (st.writeRunning = false → st.connClosed = true) := by
  induction h with
  | refl =>
      refine ⟨?_, ?_⟩ <;> intro hx <;> simp [sessionInit] at hx
  | tail hab hbc ih =>
      obtain ⟨l, hl⟩ := hbc
      exact loopStep_inv _ l _ hl ih.1 ih.2

/-- Claim C6: in every reachable joint state of a session's two loops in
which one loop has exited, deregistration is guaranteed: an exited inbound
loop has already sent the unregister request; if the inbound loop still
runs (so it was the outbound loop that exited), the connection is closed,
so the only actions left to either loop are its failure exits, and the
forced completion of the inbound loop reaches a state — itself reachable —
in which the unregister request has been sent. -/
theorem session_loop_exit_deregisters (st : SessionLoops)
    (h : LoopReach sessionInit st)
    (hexit : st.readRunning = false ∨ st.writeRunning = false) :
    (st.readRunning = false → st.unregRequested = true) ∧
    (st.readRunning = true → st.connClosed = true ∧
        ∀ (l : LoopLabel) (st2 : SessionLoops), LoopStep st l st2 →
          l = LoopLabel.readFail ∨ l = LoopLabel.writeFail) ∧
    LoopReach st (finishRead st) ∧
    (finishRead st).unregRequested = true := by
  have hinv := loopReach_inv st h
  refine ⟨hinv.1, ?_, ?_, ?_⟩
  · intro hr
    have hw : st.writeRunning = false := by
      rcases hexit with he | he
      · rw [hr] at he
        simp at he
      · exact he
    have hcc : st.connClosed = true := hinv.2 hw
    refine ⟨hcc, ?_⟩
    intro l st2 hstep
    cases hstep with
    | readMsg h1 h2 =>
        rw [hcc] at h2
        simp at h2
    | readFail h1 => exact Or.inl rfl
    | writeMsg h1 h2 =>
        rw [hcc] at h2
        simp at h2
    | writeFail h1 => exact Or.inr rfl
  · by_cases hrr : st.readRunning = true
    · have hstep : LoopStep st LoopLabel.readFail (finishRead st) := by
        have := LoopStep.readFail st hrr
        simpa [finishRead, hrr] using this
      exact Relation.ReflTransGen.single ⟨LoopLabel.readFail, hstep⟩
    · have hrf : st.readRunning = false := by
        revert hrr
        cases st.readRunning <;> simp
      have : finishRead st = st := by
        simp [finishRead, hrf]
      rw [this]
      exact Relation.ReflTransGen.refl
  · by_cases hrr : st.readRunning = true
    · simp [finishRead, hrr]
    · have hrf : st.readRunning = false := by
        revert hrr
        cases st.readRunning <;> simp
      have heq : finishRead st = st := by
        simp [finishRead, hrf]
      rw [heq]
      exact hinv.1 hrf

/-- Witness for claim C6: after the outbound loop exits first (one
`writeFail` step from the initial state), the forced completion of the
inbound loop has the unregister request sent. -/
theorem session_loop_exit_deregisters_witness :
    ((⟨true, false, true, false⟩ : SessionLoops).readRunning = false ∨
      (⟨true, false, true, false⟩ : SessionLoops).writeRunning = false) ∧
    (finishRead ⟨true, false, true, false⟩).unregRequested = true :=
  ⟨Or.inr rfl,
    (session_loop_exit_deregisters ⟨true, false, true, false⟩
        (Relation.ReflTransGen.single ⟨LoopLabel.writeFail, LoopStep.writeFail sessionInit rfl⟩)
        (Or.inr rfl)).2.2.2⟩

end Taskboard
